import Mathlib

/-!
Shallow embedding of the EV-charging receding-horizon controller of this
repository (`lp_alg.py`, `ev_funcs.py`, `evmodel.py`).

Real-valued quantities (energies, charging rates, durations) are modelled as
rationals; array indices are naturals.  NumPy arrays are modelled as total
functions from indices to rationals with their dimensions carried separately,
and the array-filling loops of the source are modelled as left folds over the
loop-index pairs in iteration order.  The external LP solver
(`scipy.optimize.linprog`) is not part of the repository: a feasible solve is
modelled as any variable vector satisfying the constraint system that
`AlgLP2v2` formulates.
-/

namespace ACN

/-- One row of the active-EV snapshot matrix `EV` passed to `AlgLP2v2`
(`lp_alg.py`): column 0 `=` remaining energy demand, column 1 `=` remaining
parking time, column 2 `=` peak charging rate. -/
structure EVRow where
  energy : ℚ
  rpt : ℚ
  peak : ℚ
deriving DecidableEq

/-- One row of the `AllEV` matrix (`ev_funcs.getACN`): energy demanded,
arrival interval, departure interval, peak charging rate. -/
structure AllEVRow where
  demand : ℚ
  arrival : ℚ
  departure : ℚ
  peak : ℚ
deriving DecidableEq

/-- One entry of the `charger` list of `evmodel.py`: the dict
`\x7b"active": a, "EV": [energy, rpt, peak]\x7d`. -/
structure Charger where
  active : ℕ
  energy : ℚ
  rpt : ℚ
  peak : ℚ
deriving DecidableEq

/-- Index pairs `(c1, c2)` visited by the nested loops
`for c1 in range(T): for c2 in range(m):`, in iteration order. -/
def loopPairs : ℕ → ℕ → List (ℕ × ℕ)
  | 0, _ => []
  | T + 1, m => loopPairs T m ++ (List.range m).map (fun c2 => (T, c2))

/-- A single conditional array write `arr[k] = v` (no write when `v = none`). -/
def writeAt {κ : Type} [DecidableEq κ] (k : κ) (v : Option ℚ) (g : κ → ℚ) : κ → ℚ :=
  match v with
  | some v0 => Function.update g k v0
  | none => g

/-- An array-filling double loop: starting from `init`, for each visited index
pair `c` write the value `val c` (when present) at index `key c`. -/
def fillLoop {κ : Type} [DecidableEq κ] (key : ℕ × ℕ → κ) (val : ℕ × ℕ → Option ℚ)
    (T m : ℕ) (init : κ → ℚ) : κ → ℚ :=
  (loopPairs T m).foldl (fun g c => writeAt (key c) (val c) g) init

/-- `A1`, the inequality-constraint matrix of `AlgLP2v2` (`lp_alg.py` lines
43-46): a `time × (m*time)` zero matrix where the double loop sets
`A1[c1][c2 + m*c1] = 1`. -/
def A1 (m time : ℕ) : ℕ × ℕ → ℚ :=
  fillLoop (fun c => (c.1, c.2 + m * c.1)) (fun _ => some 1) time m (fun _ => 0)

/-- One step of the block assignment `Aeq[:, m*c1:m*(c1+1)] = np.identity(m)`
(`lp_alg.py` line 54), on the `m × (m*time)` matrix modelled as a function of
`(row, column)`. -/
def eqBlockStep (m : ℕ) (A : ℕ × ℕ → ℚ) (c1 : ℕ) : ℕ × ℕ → ℚ :=
  fun rj =>
    if rj.1 < m ∧ m * c1 ≤ rj.2 ∧ rj.2 < m * (c1 + 1) then
      (if rj.2 = rj.1 + m * c1 then 1 else 0)
    else A rj

/-- The equality matrix before scaling, built by
`for c1 in range(time): Aeq[:, m*c1:m*(c1+1)] = np.identity(m)`
(`lp_alg.py` lines 52-54). -/
def AeqRaw (m time : ℕ) : ℕ × ℕ → ℚ :=
  (List.range time).foldl (eqBlockStep m) (fun _ => 0)

/-- `Aeq = Aeq * timeint` (`lp_alg.py` line 55). -/
def Aeq (m time : ℕ) (timeint : ℚ) : ℕ × ℕ → ℚ :=
  fun rj => AeqRaw m time rj * timeint

/-- `beq = EV[:, 0]` (`lp_alg.py` line 56). -/
def beq (EV : ℕ → EVRow) : ℕ → ℚ := fun r => (EV r).energy

/-- The upper-bound column `bounds_arr[:, 1]` (`lp_alg.py` lines 62-66): zero
unless `c1 < EV[c2][1]`, in which case the loop writes `EV[c2][2]` (the peak
rate).  The lower-bound column `bounds_arr[:, 0]` is never written and stays at
its initial value `0` for every variable. -/
def boundsUpper (EV : ℕ → EVRow) (m time : ℕ) : ℕ → ℚ :=
  fillLoop (fun c => c.2 + m * c.1)
    (fun c => if (c.1 : ℚ) < (EV c.2).rpt then some ((EV c.2).peak) else none)
    time m (fun _ => 0)

/-- The cost vector `f` (`lp_alg.py` lines 75-79): the loop sets
`f[c2 + m*c1] = c1 + 1` when `c1 < EV[c2][1]`, leaving `0` elsewhere. -/
def costVec (EV : ℕ → EVRow) (m time : ℕ) : ℕ → ℚ :=
  fillLoop (fun c => c.2 + m * c.1)
    (fun c => if (c.1 : ℚ) < (EV c.2).rpt then some ((c.1 : ℚ) + 1) else none)
    time m (fun _ => 0)

/-- Schedule extraction from a feasible solution (`lp_alg.py` lines 87-89):
`schedule[:, c1] = x[m*c1 : m*(c1+1)]`, i.e. `schedule[i][c1] = x[m*c1 + i]`. -/
def schedule (m : ℕ) (x : ℕ → ℚ) : ℕ → ℕ → ℚ := fun i c1 => x (m * c1 + i)

/-- The variable vector of a feasible solve satisfies the formulated
inequality system `A1 · x ≤ b1` with `b1 = powermax` (`lp_alg.py` lines
43-47, 83). -/
def SatisfiesIneq (m time : ℕ) (powermax : ℕ → ℚ) (x : ℕ → ℚ) : Prop :=
  ∀ r, r < time → (∑ j ∈ Finset.range (m * time), A1 m time (r, j) * x j) ≤ powermax r

/-- The variable vector of a feasible solve satisfies the formulated equality
system `Aeq · x = beq` (`lp_alg.py` lines 52-56, 83). -/
def SatisfiesEq (EV : ℕ → EVRow) (m time : ℕ) (timeint : ℚ) (x : ℕ → ℚ) : Prop :=
  ∀ r, r < m → (∑ j ∈ Finset.range (m * time), Aeq m time timeint (r, j) * x j) = beq EV r

/-- The variable vector of a feasible solve satisfies the formulated
per-variable bounds (`lp_alg.py` lines 62-69, 83). -/
def SatisfiesBounds (EV : ℕ → EVRow) (m time : ℕ) (x : ℕ → ℚ) : Prop :=
  ∀ j, j < m * time → 0 ≤ x j ∧ x j ≤ boundsUpper EV m time j

/-- The infeasible branch of `AlgLP2v2` (`lp_alg.py` lines 92-94):
`schedule = np.ones(shape=(m, time)) * -1` and `feasible = 0`, returned as the
pair `(schedule, feasible)`. -/
def infeasibleResult (m time : ℕ) : (ℕ → ℕ → ℚ) × ℕ :=
  (fun i t => if i < m ∧ t < time then 1 * (-1) else 0, 0)

/-- The snapshot row `getActiveEV` extracts from an active charger
(`ev_funcs.py` lines 74-76): the charger's `EV` triple, with the overwrite
`if ActiveEV[aev][1] > opt_horizon: ActiveEV[aev][1] = opt_horizon - 1`. -/
def snapshotRow (opt_horizon : ℚ) (c : Charger) : EVRow :=
  { energy := c.energy
    rpt := if c.rpt > opt_horizon then opt_horizon - 1 else c.rpt
    peak := c.peak }

/-- `getActiveEV` (`ev_funcs.py` lines 69-79): the rows (each paired with its
charger id, the contents of `chargerID`) collected from the chargers with
`active == 1`, in charger order. -/
def getActiveEV (charger : ℕ → Charger) (numAllEV : ℕ) (opt_horizon : ℚ) :
    List (EVRow × ℕ) :=
  ((List.range numAllEV).filter (fun ev => (charger ev).active == 1)).map
    (fun ev => (snapshotRow opt_horizon (charger ev), ev))

/-- `updateCharger` (`ev_funcs.py` lines 146-161), as the table of values held
by the returned list: slot `ii` of the advanced charger table.  The still-parked
test of line 149 is `t > AllEV[ii][1] and t < AllEV[ii][2]`, with `t` the next
interval index. -/
def updateCharger (oldcharger : ℕ → Charger) (AllEV : ℕ → AllEVRow) (t : ℕ)
    (current_rate : ℕ → ℚ) (timeint : ℚ) : ℕ → Charger := fun ii =>
  if (t : ℚ) > (AllEV ii).arrival ∧ (t : ℚ) < (AllEV ii).departure then
    if (oldcharger ii).active = 1 then
      { active := 1
        energy := (oldcharger ii).energy - current_rate ii * timeint
        rpt := (AllEV ii).departure - (t : ℚ)
        peak := (AllEV ii).peak }
    else
      { active := 1
        energy := (AllEV ii).demand
        rpt := (AllEV ii).departure - (t : ℚ)
        peak := (AllEV ii).peak }
  else
    { active := 0, energy := 0, rpt := 0, peak := 0 }

/-- The two charger-table attributes of `EVModel` that surround the Advance
step of `EVModel.update`. -/
structure ChargerTables where
  charger : ℕ → Charger
  chargerNew : ℕ → Charger

/-- Lines 232-235 of `evmodel.py` under Python reference semantics.
`self.charger = self.chargerNew` copies a reference, and `updateCharger`
mutates the list it is given in place (its first line, `charger = oldcharger`,
also copies the reference, and every subsequent statement assigns into the
shared list), so after the Advance step both attributes hold the advanced
table. -/
def advancePhase (s : ChargerTables) (AllEV : ℕ → AllEVRow) (t : ℕ)
    (rateColumn : ℕ → ℚ) (timeint : ℚ) : ChargerTables :=
  { charger := updateCharger s.chargerNew AllEV t rateColumn timeint
    chargerNew := updateCharger s.chargerNew AllEV t rateColumn timeint }

/-- `numActiveEV` (`evmodel.py` lines 187-190): the sum of the `active` flags
of the charger table. -/
def numActiveEVOf (chargerNew : ℕ → Charger) (numAllEV : ℕ) : ℕ :=
  ((List.range numAllEV).map (fun ii => (chargerNew ii).active)).sum

/-- The commit loop (`evmodel.py` lines 227-228): for each active row `aev`,
write `schedule[aev][0]` at position `chargerID[aev]` of column `ti` of
`self.rate`. -/
def commitColumn (numActive : ℕ) (chargerID : ℕ → ℕ) (sched : ℕ → ℕ → ℚ)
    (old : ℕ → ℚ) : ℕ → ℚ :=
  (List.range numActive).foldl
    (fun col aev => Function.update col (chargerID aev) (sched aev 0)) old

/-- The observable outcome of one iteration of the interval loop of
`EVModel.update`.  `lp` is `none` when the solve was skipped
(`numActiveEV == 0`); otherwise it holds the `(schedule, feasible)` pair the
solve returned.  `schedRows` is the number of rows of `self.schedule`. -/
structure IntervalResult where
  lp : Option ((ℕ → ℕ → ℚ) × ℕ)
  schedRows : ℕ
  sched : ℕ → ℕ → ℚ
  rateColumn : ℕ → ℚ
  chargerNext : ℕ → Charger

/-- One iteration of the `for ti in ...` loop of `EVModel.update`
(`evmodel.py` lines 186-235), with the LP solve abstracted as `algLP` (the
solver itself is the external `scipy.optimize.linprog`; `algLP` receives the
snapshot rows and returns the `(schedule, feasible)` pair).  `oldColumn` is
column `ti` of `self.rate` before the iteration; `self.schedule` is first set
to `np.zeros((numActiveEV, opt_horizon))` (line 193), and the LP branch runs
only when `numActiveEV > 0` (line 195).  On an infeasible result the commit
loop is skipped, so the rate column is left unchanged; the Advance step then
uses that column (line 235). -/
def updateInterval (algLP : List EVRow → (ℕ → ℕ → ℚ) × ℕ)
    (chargerNew : ℕ → Charger) (numAllEV : ℕ) (opt_horizon : ℚ)
    (AllEV : ℕ → AllEVRow) (ti : ℕ) (oldColumn : ℕ → ℚ) (timeint : ℚ) :
    IntervalResult :=
  let numActive := numActiveEVOf chargerNew numAllEV
  if 0 < numActive then
    let snap := getActiveEV chargerNew numAllEV opt_horizon
    let res := algLP (snap.map Prod.fst)
    let col :=
      if res.2 = 1 then
        commitColumn numActive (fun aev => (snap.map Prod.snd).getD aev 0) res.1 oldColumn
      else oldColumn
    { lp := some res
      schedRows := numActive
      sched := res.1
      rateColumn := col
      chargerNext := updateCharger chargerNew AllEV (ti + 1) col timeint }
  else
    { lp := none
      schedRows := numActive
      sched := fun _ _ => 0
      rateColumn := oldColumn
      chargerNext := updateCharger chargerNew AllEV (ti + 1) oldColumn timeint }

/-- The reformatting step of `EVModel.update` (`evmodel.py` line 242):
`self.schedule = self.schedule[:, 0:(len(self.schedule[0]) - self.t)]`.
`self.schedule[0]` indexes row 0 of the schedule, which raises `IndexError`
when the schedule has zero rows, so the step only produces a value when
`rows > 0`; the surviving entries are the first `cols - t` columns. -/
def reformatSchedule (rows cols t : ℕ) (sched : ℕ → ℕ → ℚ) :
    Option (ℕ → ℕ → ℚ) :=
  if rows = 0 then none
  else some (fun i j => if j < cols - t then sched i j else 0)

/-! ### Evaluation lemmas for the array-filling loops -/

theorem mem_loopPairs {T m : ℕ} {c : ℕ × ℕ} :
    c ∈ loopPairs T m ↔ c.1 < T ∧ c.2 < m := by
  induction T with
  | zero => simp [loopPairs]
  | succ T ih =>
    simp only [loopPairs, List.mem_append, ih, List.mem_map, List.mem_range]
    constructor
    · rintro (⟨h1, h2⟩ | ⟨c2, hc2, rfl⟩)
      · exact ⟨Nat.lt_succ_of_lt h1, h2⟩
      · exact ⟨Nat.lt_succ_self T, hc2⟩
    · rintro ⟨h1, h2⟩
      by_cases h : c.1 < T
      · exact Or.inl ⟨h, h2⟩
      · have hT : c.1 = T := by omega
        exact Or.inr ⟨c.2, h2, by rw [← hT]⟩

theorem writeAt_ne {κ : Type} [DecidableEq κ] {k k' : κ} (v : Option ℚ)
    (g : κ → ℚ) (h : k' ≠ k) : writeAt k' v g k = g k := by
  cases v with
  | none => rfl
  | some v0 => exact Function.update_noteq (Ne.symm h) _ _

theorem foldl_writeAt_ne {κ : Type} [DecidableEq κ] (key : ℕ × ℕ → κ)
    (val : ℕ × ℕ → Option ℚ) (L : List (ℕ × ℕ)) (g : κ → ℚ) (k : κ)
    (h : ∀ c ∈ L, key c ≠ k) :
    L.foldl (fun g c => writeAt (key c) (val c) g) g k = g k := by
  induction L generalizing g with
  | nil => rfl
  | cons c L ih =>
    simp only [List.foldl_cons]
    rw [ih _ fun c' hc' => h c' (List.mem_cons_of_mem _ hc')]
    exact writeAt_ne _ _ (h c (List.mem_cons_self _ _))

theorem flatIndex_inj {m c1 c2 t i : ℕ} (hc2 : c2 < m) (hi : i < m)
    (h : c2 + m * c1 = i + m * t) : c2 = i ∧ c1 = t := by
  have hmod : (c2 + m * c1) % m = (i + m * t) % m := by rw [h]
  rw [Nat.add_mul_mod_self_left, Nat.add_mul_mod_self_left,
    Nat.mod_eq_of_lt hc2, Nat.mod_eq_of_lt hi] at hmod
  subst hmod
  refine ⟨rfl, ?_⟩
  have h2 : m * c1 = m * t := by omega
  exact Nat.eq_of_mul_eq_mul_left (by omega) h2

theorem foldl_block_eval {κ : Type} [DecidableEq κ] (key : ℕ × ℕ → κ)
    (val : ℕ × ℕ → Option ℚ) {m : ℕ} (T : ℕ) (g : κ → ℚ) {i : ℕ}
    (hinj : ∀ c : ℕ × ℕ, c.2 < m → key c = key (T, i) → c = (T, i)) :
    ∀ b, i < b → b ≤ m →
      ((List.range b).map (fun c2 => (T, c2))).foldl
          (fun g c => writeAt (key c) (val c) g) g (key (T, i))
        = (val (T, i)).getD (g (key (T, i))) := by
  intro b
  induction b with
  | zero => omega
  | succ b ih =>
    intro hib hbm
    rw [List.range_succ, List.map_append, List.foldl_append]
    simp only [List.map_cons, List.map_nil, List.foldl_cons, List.foldl_nil]
    by_cases hib' : i < b
    · rw [writeAt_ne]
      · exact ih hib' (Nat.le_of_succ_le hbm)
      · intro hk
        have hb : b < m := Nat.lt_of_lt_of_le (Nat.lt_succ_self b) hbm
        have hc := hinj (T, b) hb hk
        have : b = i := congrArg Prod.snd hc
        omega
    · have hieq : b = i := by omega
      subst hieq
      have hg : ((List.range b).map (fun c2 => (T, c2))).foldl
          (fun g c => writeAt (key c) (val c) g) g (key (T, b)) = g (key (T, b)) := by
        apply foldl_writeAt_ne
        intro c hc
        simp only [List.mem_map, List.mem_range] at hc
        obtain ⟨c2, hc2, rfl⟩ := hc
        intro hk
        have hcm : c2 < m := by omega
        have hce := hinj (T, c2) hcm hk
        have : c2 = b := congrArg Prod.snd hce
        omega
      cases hv : val (T, b) with
      | none =>
        rw [Option.getD_none]
        exact hg
      | some v0 =>
        rw [Option.getD_some]
        exact Function.update_same _ _ _

theorem fillLoop_eval {κ : Type} [DecidableEq κ] (key : ℕ × ℕ → κ)
    (val : ℕ × ℕ → Option ℚ) {T m : ℕ} (init : κ → ℚ) {t i : ℕ}
    (ht : t < T) (hi : i < m)
    (hinj : ∀ c : ℕ × ℕ, c.2 < m → key c = key (t, i) → c = (t, i)) :
    fillLoop key val T m init (key (t, i)) = (val (t, i)).getD (init (key (t, i))) := by
  induction T with
  | zero => omega
  | succ T ih =>
    simp only [fillLoop, loopPairs, List.foldl_append] at ih ⊢
    by_cases htT : t < T
    · rw [foldl_writeAt_ne]
      · exact ih htT
      · intro c hc
        simp only [List.mem_map, List.mem_range] at hc
        obtain ⟨c2, hc2, rfl⟩ := hc
        intro hk
        have hce := hinj (T, c2) hc2 hk
        have hT : T = t := congrArg Prod.fst hce
        omega
    · have hteq : T = t := by omega
      subst hteq
      rw [foldl_block_eval key val T _ hinj m hi (le_refl m)]
      cases hv : val (T, i) with
      | some v0 => simp only [hv, Option.getD_some]
      | none =>
        simp only [hv, Option.getD_none]
        apply foldl_writeAt_ne
        intro c hc hk
        have hc' := mem_loopPairs.mp hc
        have hce := hinj c hc'.2 hk
        have : c.1 = T := congrArg Prod.fst hce
        omega

theorem fillLoop_eval_ne {κ : Type} [DecidableEq κ] (key : ℕ × ℕ → κ)
    (val : ℕ × ℕ → Option ℚ) {T m : ℕ} (init : κ → ℚ) {k : κ}
    (h : ∀ c : ℕ × ℕ, c.1 < T → c.2 < m → key c ≠ k) :
    fillLoop key val T m init k = init k := by
  apply foldl_writeAt_ne
  intro c hc
  exact h c (mem_loopPairs.mp hc).1 (mem_loopPairs.mp hc).2

/-- Injectivity of the flattened key `(c1, c2) ↦ c2 + m*c1` used by the
cost-vector and bounds loops. -/
theorem flatKey_inj {m t i : ℕ} (hi : i < m) :
    ∀ c : ℕ × ℕ, c.2 < m →
      (fun c : ℕ × ℕ => c.2 + m * c.1) c = (fun c : ℕ × ℕ => c.2 + m * c.1) (t, i) →
      c = (t, i) := by
  intro c hc2 hk
  simp only at hk
  obtain ⟨h2, h1⟩ := flatIndex_inj hc2 hi hk
  obtain ⟨a, b⟩ := c
  simp_all

/-- Closed form of the upper-bound column: variable `(i, t)` is bounded by the
peak rate while `t` is before the vehicle's remaining parking time, and by `0`
afterwards. -/
theorem boundsUpper_eval (EV : ℕ → EVRow) {m T t i : ℕ}
    (ht : t < T) (hi : i < m) :
    boundsUpper EV m T (i + m * t)
      = if (t : ℚ) < (EV i).rpt then (EV i).peak else 0 := by
  have h := fillLoop_eval (fun c : ℕ × ℕ => c.2 + m * c.1)
    (fun c => if (c.1 : ℚ) < (EV c.2).rpt then some ((EV c.2).peak) else none)
    (fun _ => 0) ht hi (flatKey_inj hi)
  simp only at h
  rw [boundsUpper, h]
  by_cases hc : (t : ℚ) < (EV i).rpt <;> simp [hc]

/-- Closed form of the cost vector: coefficient `t + 1` while `t` is before
the vehicle's remaining parking time, `0` afterwards. -/
theorem costVec_eval (EV : ℕ → EVRow) {m T t i : ℕ}
    (ht : t < T) (hi : i < m) :
    costVec EV m T (i + m * t)
      = if (t : ℚ) < (EV i).rpt then (t : ℚ) + 1 else 0 := by
  have h := fillLoop_eval (fun c : ℕ × ℕ => c.2 + m * c.1)
    (fun c => if (c.1 : ℚ) < (EV c.2).rpt then some ((c.1 : ℚ) + 1) else none)
    (fun _ => 0) ht hi (flatKey_inj hi)
  simp only at h
  rw [costVec, h]
  by_cases hc : (t : ℚ) < (EV i).rpt <;> simp [hc]

/-- Closed form of the inequality matrix: row `r` has a `1` exactly on the
variables of time step `r`. -/
theorem A1_eval {m T r t i : ℕ} (ht : t < T) (hi : i < m) :
    A1 m T (r, i + m * t) = if r = t then 1 else 0 := by
  by_cases hrt : r = t
  · subst hrt
    have hinj : ∀ c : ℕ × ℕ, c.2 < m →
        (fun c : ℕ × ℕ => ((c.1, c.2 + m * c.1) : ℕ × ℕ)) c
          = (fun c : ℕ × ℕ => ((c.1, c.2 + m * c.1) : ℕ × ℕ)) (r, i) →
        c = (r, i) := by
      intro c hc2 hk
      simp only [Prod.mk.injEq] at hk
      obtain ⟨h1, h2⟩ := hk
      rw [h1] at h2
      have h3 : c.2 = i := Nat.add_right_cancel h2
      obtain ⟨a, b⟩ := c
      simp_all
    have h := fillLoop_eval (fun c : ℕ × ℕ => ((c.1, c.2 + m * c.1) : ℕ × ℕ))
      (fun _ => some 1) (fun _ => 0) ht hi hinj
    simp only at h
    rw [A1, h, if_pos rfl]
    rfl
  · rw [if_neg hrt, A1, fillLoop_eval_ne]
    intro c hc1 hc2 hk
    simp only [Prod.mk.injEq] at hk
    obtain ⟨h1, h2⟩ := hk
    obtain ⟨-, h4⟩ := flatIndex_inj hc2 hi h2
    exact hrt (h1 ▸ h4.symm ▸ rfl)

/-- Closed form of the (unscaled) equality matrix: row `r` has a `1` exactly
on the variables of vehicle `r`. -/
theorem AeqRaw_eval {m T r t i : ℕ} (hr : r < m) (ht : t < T) (hi : i < m) :
    AeqRaw m T (r, i + m * t) = if i = r then 1 else 0 := by
  induction T with
  | zero => omega
  | succ T ih =>
    unfold AeqRaw
    rw [List.range_succ, List.foldl_append, List.foldl_cons, List.foldl_nil]
    by_cases htT : t < T
    · have hmul : m * (t + 1) ≤ m * T := Nat.mul_le_mul (le_refl m) htT
      have hms : m * (t + 1) = m * t + m := by ring
      have hlt : i + m * t < m * T := by omega
      simp only [eqBlockStep]
      rw [if_neg (by omega)]
      exact ih htT
    · have hteq : t = T := by omega
      subst hteq
      simp only [eqBlockStep]
      have hms : m * (t + 1) = m * t + m := by ring
      rw [if_pos ⟨hr, Nat.le_add_left _ _, by omega⟩]
      by_cases hir : i = r
      · rw [if_pos (by rw [hir]), if_pos hir]
      · rw [if_neg (fun hcontra => hir (Nat.add_right_cancel hcontra)), if_neg hir]

/-- The flattened variable index of `(vehicle i, time t)` is within the
`m * time` LP variables. -/
theorem flat_lt {m T t i : ℕ} (ht : t < T) (hi : i < m) : m * t + i < m * T := by
  have hmul : m * (t + 1) ≤ m * T := Nat.mul_le_mul (le_refl m) ht
  have hms : m * (t + 1) = m * t + m := by ring
  omega

/-- Reindexing a sum over the `m * T` flattened LP variables as a double sum
over (time step, vehicle). -/
theorem sum_range_mul (g : ℕ → ℚ) (m T : ℕ) :
    (∑ j ∈ Finset.range (m * T), g j)
      = ∑ t ∈ Finset.range T, ∑ i ∈ Finset.range m, g (i + m * t) := by
  induction T with
  | zero => simp
  | succ T ih =>
    rw [Nat.mul_succ, Finset.sum_range_add, ih, Finset.sum_range_succ]
    congr 1
    refine Finset.sum_congr rfl fun i _ => ?_
    rw [Nat.add_comm]

/-! ### Consequences of the formulated constraints for the extracted schedule -/

/-- Row `i` of the equality system forces the extracted schedule to deliver
vehicle `i`'s snapshot energy exactly: `∑ t, schedule[i][t] * timeint =
EV[i][0]`. -/
theorem eq_constraint_schedule (EV : ℕ → EVRow) (m time : ℕ) (timeint : ℚ)
    (x : ℕ → ℚ) (hx : SatisfiesEq EV m time timeint x) {i : ℕ} (hi : i < m) :
    (∑ t ∈ Finset.range time, schedule m x i t * timeint) = (EV i).energy := by
  have h := hx i hi
  rw [sum_range_mul] at h
  have hinner : ∀ t ∈ Finset.range time,
      (∑ r ∈ Finset.range m, Aeq m time timeint (i, r + m * t) * x (r + m * t))
        = schedule m x i t * timeint := by
    intro t htr
    rw [Finset.mem_range] at htr
    have hterm : ∀ r ∈ Finset.range m,
        Aeq m time timeint (i, r + m * t) * x (r + m * t)
          = if r = i then schedule m x i t * timeint else 0 := by
      intro r hrr
      rw [Finset.mem_range] at hrr
      rw [Aeq, AeqRaw_eval hi htr hrr]
      by_cases hri : r = i
      · subst hri
        rw [if_pos rfl, if_pos rfl, schedule, Nat.add_comm]
        ring
      · rw [if_neg hri, if_neg hri, zero_mul, zero_mul]
    rw [Finset.sum_congr rfl hterm,
      Finset.sum_ite_eq' (Finset.range m) i fun _ => schedule m x i t * timeint,
      if_pos (Finset.mem_range.mpr hi)]
  rw [Finset.sum_congr rfl hinner] at h
  simpa only [beq] using h

/-- Row `t` of the inequality system bounds the aggregate extracted rate at
time step `t` by the power cap. -/
theorem ineq_constraint_schedule (m time : ℕ) (powermax x : ℕ → ℚ)
    (hx : SatisfiesIneq m time powermax x) {t : ℕ} (ht : t < time) :
    (∑ i ∈ Finset.range m, schedule m x i t) ≤ powermax t := by
  have h := hx t ht
  rw [sum_range_mul] at h
  have hinner : ∀ t' ∈ Finset.range time,
      (∑ i ∈ Finset.range m, A1 m time (t, i + m * t') * x (i + m * t'))
        = if t' = t then ∑ i ∈ Finset.range m, schedule m x i t else 0 := by
    intro t' ht'
    rw [Finset.mem_range] at ht'
    by_cases htt : t' = t
    · subst htt
      rw [if_pos rfl]
      refine Finset.sum_congr rfl fun i hir => ?_
      rw [Finset.mem_range] at hir
      rw [A1_eval ht' hir, if_pos rfl, one_mul, schedule, Nat.add_comm]
    · rw [if_neg htt]
      refine Finset.sum_eq_zero fun i hir => ?_
      rw [Finset.mem_range] at hir
      rw [A1_eval ht' hir, if_neg fun hc => htt hc.symm, zero_mul]
  rw [Finset.sum_congr rfl hinner,
    Finset.sum_ite_eq' (Finset.range time) t
      fun _ => ∑ i ∈ Finset.range m, schedule m x i t,
    if_pos (Finset.mem_range.mpr ht)] at h
  exact h

/-- The per-variable bounds force the extracted schedule to be `0` at every
time step at or past the vehicle's remaining parking time. -/
theorem bounds_schedule_zero (EV : ℕ → EVRow) (m time : ℕ) (x : ℕ → ℚ)
    (hx : SatisfiesBounds EV m time x) {i t : ℕ} (hi : i < m) (ht : t < time)
    (hrpt : (EV i).rpt ≤ (t : ℚ)) : schedule m x i t = 0 := by
  have hj := hx (m * t + i) (flat_lt ht hi)
  have hub : boundsUpper EV m time (m * t + i) = 0 := by
    rw [Nat.add_comm, boundsUpper_eval EV ht hi, if_neg (not_lt.mpr hrpt)]
  rw [schedule]
  have h2 := hj.2
  rw [hub] at h2
  exact le_antisymm h2 hj.1

/-! ### Claim theorems -/

/-- C1: in every formulated LP the equality system has one row per active
vehicle, with coefficient `timeint` on every variable of that vehicle and `0`
on the other vehicles' variables, and right-hand side equal to the vehicle's
remaining energy as recorded in the snapshot; hence for every feasible solve
the extracted schedule satisfies
`∑ t, scheduleMatrix[i][t] * timeint = remainingEnergy(i)`. -/
theorem lp_energy_equality (EV : ℕ → EVRow) (m time : ℕ) (timeint : ℚ)
    (x : ℕ → ℚ) (hx : SatisfiesEq EV m time timeint x) {i : ℕ} (hi : i < m) :
    (∀ t r, t < time → r < m →
        Aeq m time timeint (i, r + m * t) = if r = i then timeint else 0)
    ∧ beq EV i = (EV i).energy
    ∧ (∑ t ∈ Finset.range time, schedule m x i t * timeint) = (EV i).energy := by
  refine ⟨?_, rfl, eq_constraint_schedule EV m time timeint x hx hi⟩
  intro t r ht hr
  rw [Aeq, AeqRaw_eval hi ht hr]
  by_cases hri : r = i
  · rw [if_pos hri, if_pos hri, one_mul]
  · rw [if_neg hri, if_neg hri, zero_mul]

/-- Witness for C1: one vehicle with snapshot energy 2, horizon 1, interval
duration 2, solution rate 1. -/
theorem lp_energy_equality_witness :
    SatisfiesEq (fun _ => EVRow.mk 2 1 1) 1 1 2 (fun _ => 1)
    ∧ (∑ t ∈ Finset.range 1, schedule 1 (fun _ => 1) 0 t * 2)
        = ((fun _ : ℕ => EVRow.mk 2 1 1) 0).energy := by
  have hx : SatisfiesEq (fun _ => EVRow.mk 2 1 1) 1 1 2 (fun _ => 1) := by
    intro r hr
    have hr0 : r = 0 := by omega
    subst hr0
    have hA : AeqRaw 1 1 ((0 : ℕ), (0 : ℕ)) = 1 := by
      have h := AeqRaw_eval (m := 1) (T := 1) (r := 0) (t := 0) (i := 0)
        (by omega) (by omega) (by omega)
      simpa using h
    rw [show (1 * 1 : ℕ) = 1 from rfl, Finset.sum_range_one]
    simp only [Aeq, beq]
    rw [hA]
    norm_num
  exact ⟨hx, (lp_energy_equality (fun _ => EVRow.mk 2 1 1) 1 1 2 (fun _ => 1) hx
    (by omega)).2.2⟩

/-- C2: in every formulated LP the inequality system has one row per time step
summing the `m` variables of that time step, bounded by the power-cap vector;
hence for every feasible solve and every `t < time`,
`∑ i, scheduleMatrix[i][t] ≤ powerCap[t]`. -/
theorem lp_power_cap (m time : ℕ) (powermax x : ℕ → ℚ)
    (hx : SatisfiesIneq m time powermax x) {t : ℕ} (ht : t < time) :
    (∀ t' i, t' < time → i < m →
        A1 m time (t, i + m * t') = if t = t' then 1 else 0)
    ∧ (∑ i ∈ Finset.range m, schedule m x i t) ≤ powermax t := by
  refine ⟨?_, ineq_constraint_schedule m time powermax x hx ht⟩
  intro t' i ht' hi
  exact A1_eval ht' hi

/-- Witness for C2: one vehicle, horizon 1, power cap 3, solution rate 1. -/
theorem lp_power_cap_witness :
    SatisfiesIneq 1 1 (fun _ => 3) (fun _ => 1)
    ∧ (∑ i ∈ Finset.range 1, schedule 1 (fun _ => 1) i 0) ≤ (fun _ : ℕ => (3 : ℚ)) 0 := by
  have hx : SatisfiesIneq 1 1 (fun _ => 3) (fun _ => 1) := by
    intro r hr
    have hr0 : r = 0 := by omega
    subst hr0
    have hA : A1 1 1 ((0 : ℕ), (0 : ℕ)) = 1 := by
      have h := A1_eval (m := 1) (T := 1) (r := 0) (t := 0) (i := 0)
        (by omega) (by omega)
      simpa using h
    rw [show (1 * 1 : ℕ) = 1 from rfl, Finset.sum_range_one]
    rw [hA]
    norm_num
  exact ⟨hx, (lp_power_cap 1 1 (fun _ => 3) (fun _ => 1) hx (by omega)).2⟩

/-- C3: in the formulated LP, variable `(i, t)` is bounded by
`[0, peakRate(i)]` when `t < remainingParkingTime(i)` and by `[0, 0]`
otherwise (the lower bound is always `0`); hence for every feasible solve,
`scheduleMatrix[i][t] = 0` whenever `t ≥ remainingParkingTime(i)`. -/
theorem lp_bounds_after_departure (EV : ℕ → EVRow) (m time : ℕ) (x : ℕ → ℚ)
    {i t : ℕ} (hi : i < m) (ht : t < time) :
    (boundsUpper EV m time (i + m * t)
        = if (t : ℚ) < (EV i).rpt then (EV i).peak else 0)
    ∧ (SatisfiesBounds EV m time x → (EV i).rpt ≤ (t : ℚ) → schedule m x i t = 0) :=
  ⟨boundsUpper_eval EV ht hi,
    fun hx hrpt => bounds_schedule_zero EV m time x hx hi ht hrpt⟩

/-- Witness for C3: one vehicle with remaining parking time 1 over a horizon
of 2; the feasible point charges only at step 0 and the schedule is 0 at step
1, which is at the vehicle's departure. -/
theorem lp_bounds_after_departure_witness :
    SatisfiesBounds (fun _ => EVRow.mk 2 1 1) 1 2 (fun j => if j = 0 then 1 else 0)
    ∧ ((fun _ : ℕ => EVRow.mk 2 1 1) 0).rpt ≤ ((1 : ℕ) : ℚ)
    ∧ schedule 1 (fun j => if j = 0 then 1 else 0) 0 1 = 0 := by
  have hub0 : boundsUpper (fun _ => EVRow.mk 2 1 1) 1 2 0 = 1 := by
    have h := boundsUpper_eval (m := 1) (T := 2) (t := 0) (i := 0)
      (fun _ => EVRow.mk 2 1 1) (by omega) (by omega)
    norm_num at h
    exact h
  have hub1 : boundsUpper (fun _ => EVRow.mk 2 1 1) 1 2 1 = 0 := by
    have h := boundsUpper_eval (m := 1) (T := 2) (t := 1) (i := 0)
      (fun _ => EVRow.mk 2 1 1) (by omega) (by omega)
    norm_num at h
    exact h
  have hx : SatisfiesBounds (fun _ => EVRow.mk 2 1 1) 1 2
      (fun j => if j = 0 then 1 else 0) := by
    intro j hj
    have hj01 : j = 0 ∨ j = 1 := by omega
    rcases hj01 with rfl | rfl
    · rw [hub0]; norm_num
    · rw [hub1]; norm_num
  have hr : ((fun _ : ℕ => EVRow.mk 2 1 1) 0).rpt ≤ ((1 : ℕ) : ℚ) := by norm_num
  exact ⟨hx, hr,
    (lp_bounds_after_departure (fun _ => EVRow.mk 2 1 1) 1 2
      (fun j => if j = 0 then 1 else 0) (by omega) (by omega)).2 hx hr⟩

/-- C7: in every formulated LP the cost coefficient of variable `(i, t)` is
`t + 1` when `t < remainingParkingTime(i)` and `0` otherwise. -/
theorem lp_cost_coefficients (EV : ℕ → EVRow) (m time : ℕ) {i t : ℕ}
    (hi : i < m) (ht : t < time) :
    costVec EV m time (i + m * t)
      = if (t : ℚ) < (EV i).rpt then (t : ℚ) + 1 else 0 :=
  costVec_eval EV ht hi

/-- Witness for C7: one vehicle with remaining parking time 1, horizon 2;
the coefficient of its step-1 variable (at or past departure) is forced by
the closed form. -/
theorem lp_cost_coefficients_witness :
    (0 : ℕ) < 1 ∧ (1 : ℕ) < 2
    ∧ costVec (fun _ => EVRow.mk 2 1 1) 1 2 (0 + 1 * 1)
        = if ((1 : ℕ) : ℚ) < ((fun _ : ℕ => EVRow.mk 2 1 1) 0).rpt
          then ((1 : ℕ) : ℚ) + 1 else 0 :=
  ⟨by omega, by omega,
    lp_cost_coefficients (fun _ => EVRow.mk 2 1 1) 1 2 (by omega) (by omega)⟩

/-- C8: a charger that is Active before the interval and still parked at the
Advance step has its remaining energy decreased by `dispatchedRate * timeint`,
where the dispatched rate is the first column of the extracted schedule; the
LP's equality row and non-negativity bounds force
`0 ≤ dispatchedRate * timeint ≤ remaining energy`, so the new energy lies in
`[0, old energy]`, and the remaining parking time decreases by one interval. -/
theorem active_energy_monotone (EV : ℕ → EVRow) (m time : ℕ) (timeint : ℚ)
    (x : ℕ → ℚ) (old : ℕ → Charger) (AllEV : ℕ → AllEVRow) (t : ℕ)
    (rate : ℕ → ℚ) (ii i : ℕ)
    (hT : 0 < time) (htint : 0 < timeint) (hi : i < m)
    (heq : SatisfiesEq EV m time timeint x) (hb : SatisfiesBounds EV m time x)
    (hrate : rate ii = schedule m x i 0)
    (hen : (EV i).energy = (old ii).energy)
    (hact : (old ii).active = 1)
    (hwin : (AllEV ii).arrival < (t : ℚ) ∧ (t : ℚ) < (AllEV ii).departure)
    (hrpt : (old ii).rpt = (AllEV ii).departure - (t : ℚ) + 1) :
    0 ≤ (updateCharger old AllEV t rate timeint ii).energy
    ∧ (updateCharger old AllEV t rate timeint ii).energy ≤ (old ii).energy
    ∧ (updateCharger old AllEV t rate timeint ii).rpt ≤ (old ii).rpt := by
  have hupd : updateCharger old AllEV t rate timeint ii
      = { active := 1
          energy := (old ii).energy - rate ii * timeint
          rpt := (AllEV ii).departure - (t : ℚ)
          peak := (AllEV ii).peak } := by
    rw [updateCharger, if_pos ⟨hwin.1, hwin.2⟩, if_pos hact]
  have hterm : ∀ s ∈ Finset.range time, 0 ≤ schedule m x i s * timeint := by
    intro s hs
    rw [Finset.mem_range] at hs
    have hxs := (hb (m * s + i) (flat_lt hs hi)).1
    rw [schedule]
    exact mul_nonneg hxs (le_of_lt htint)
  have hsum := eq_constraint_schedule EV m time timeint x heq hi
  have hfirst : schedule m x i 0 * timeint ≤ (EV i).energy := by
    rw [← hsum]
    exact Finset.single_le_sum hterm (Finset.mem_range.mpr hT)
  have hfirst0 : 0 ≤ schedule m x i 0 * timeint :=
    hterm 0 (Finset.mem_range.mpr hT)
  rw [hen] at hfirst
  rw [hupd]
  refine ⟨?_, ?_, ?_⟩
  · show 0 ≤ (old ii).energy - rate ii * timeint
    rw [hrate]
    linarith
  · show (old ii).energy - rate ii * timeint ≤ (old ii).energy
    rw [hrate]
    linarith
  · show (AllEV ii).departure - (t : ℚ) ≤ (old ii).rpt
    rw [hrpt]
    linarith

/-- Witness for C8: one vehicle, horizon 1, interval duration 2, snapshot
energy 2, feasible rate 1; the charger advances from energy 2 to 0 and its
parking time drops from 2 to 1. -/
theorem active_energy_monotone_witness :
    SatisfiesEq (fun _ => EVRow.mk 2 1 1) 1 1 2 (fun _ => 1)
    ∧ SatisfiesBounds (fun _ => EVRow.mk 2 1 1) 1 1 (fun _ => 1)
    ∧ (0 ≤ (updateCharger (fun _ => Charger.mk 1 2 2 1) (fun _ => AllEVRow.mk 2 0 2 1) 1
          (fun _ => 1) 2 0).energy
        ∧ (updateCharger (fun _ => Charger.mk 1 2 2 1) (fun _ => AllEVRow.mk 2 0 2 1) 1
            (fun _ => 1) 2 0).energy ≤ ((fun _ : ℕ => Charger.mk 1 2 2 1) 0).energy
        ∧ (updateCharger (fun _ => Charger.mk 1 2 2 1) (fun _ => AllEVRow.mk 2 0 2 1) 1
            (fun _ => 1) 2 0).rpt ≤ ((fun _ : ℕ => Charger.mk 1 2 2 1) 0).rpt) := by
  have hx : SatisfiesEq (fun _ => EVRow.mk 2 1 1) 1 1 2 (fun _ => 1) := by
    intro r hr
    have hr0 : r = 0 := by omega
    subst hr0
    have hA : AeqRaw 1 1 ((0 : ℕ), (0 : ℕ)) = 1 := by
      have h := AeqRaw_eval (m := 1) (T := 1) (r := 0) (t := 0) (i := 0)
        (by omega) (by omega) (by omega)
      simpa using h
    rw [show (1 * 1 : ℕ) = 1 from rfl, Finset.sum_range_one]
    simp only [Aeq, beq]
    rw [hA]
    norm_num
  have hbd : SatisfiesBounds (fun _ => EVRow.mk 2 1 1) 1 1 (fun _ => 1) := by
    intro j hj
    have hj0 : j = 0 := by omega
    subst hj0
    have hub : boundsUpper (fun _ => EVRow.mk 2 1 1) 1 1 0 = 1 := by
      have h := boundsUpper_eval (m := 1) (T := 1) (t := 0) (i := 0)
        (fun _ => EVRow.mk 2 1 1) (by omega) (by omega)
      norm_num at h
      exact h
    rw [hub]
    norm_num
  refine ⟨hx, hbd, ?_⟩
  exact active_energy_monotone (fun _ => EVRow.mk 2 1 1) 1 1 2 (fun _ => 1)
    (fun _ => Charger.mk 1 2 2 1) (fun _ => AllEVRow.mk 2 0 2 1) 1 (fun _ => 1) 0 0
    (by omega) (by norm_num) (by omega) hx hbd rfl rfl rfl
    (by constructor <;> norm_num) (by norm_num)

/-- C4: when the LP for an interval is infeasible, `AlgLP2v2` returns the
`(m × T)` sentinel matrix of `-1`s together with `feasible = 0`; the
controller's commit loop is skipped so the rate column of that interval keeps
its initial zeros, and the Advance step (which uses that zero column) leaves
the remaining energy of every still-parked Active charger unchanged. -/
theorem lp_infeasible_interval (chargerNew : ℕ → Charger) (numAllEV : ℕ)
    (opt_horizon : ℚ) (T : ℕ) (AllEV : ℕ → AllEVRow) (ti : ℕ)
    (oldColumn : ℕ → ℚ) (timeint : ℚ)
    (hact : 0 < numActiveEVOf chargerNew numAllEV)
    (hcol : ∀ ii, oldColumn ii = 0) :
    (updateInterval (fun snap => infeasibleResult snap.length T) chargerNew numAllEV
        opt_horizon AllEV ti oldColumn timeint).lp
      = some ((updateInterval (fun snap => infeasibleResult snap.length T) chargerNew
          numAllEV opt_horizon AllEV ti oldColumn timeint).sched, 0)
    ∧ (∀ i t, i < (getActiveEV chargerNew numAllEV opt_horizon).length → t < T →
        (updateInterval (fun snap => infeasibleResult snap.length T) chargerNew numAllEV
            opt_horizon AllEV ti oldColumn timeint).sched i t = -1)
    ∧ (updateInterval (fun snap => infeasibleResult snap.length T) chargerNew numAllEV
          opt_horizon AllEV ti oldColumn timeint).rateColumn = oldColumn
    ∧ (∀ ii, (chargerNew ii).active = 1 →
        (AllEV ii).arrival < ((ti + 1 : ℕ) : ℚ) →
        ((ti + 1 : ℕ) : ℚ) < (AllEV ii).departure →
        ((updateInterval (fun snap => infeasibleResult snap.length T) chargerNew numAllEV
            opt_horizon AllEV ti oldColumn timeint).chargerNext ii).energy
          = (chargerNew ii).energy) := by
  have hR : updateInterval (fun snap => infeasibleResult snap.length T) chargerNew numAllEV
      opt_horizon AllEV ti oldColumn timeint
      = { lp := some (infeasibleResult
            ((getActiveEV chargerNew numAllEV opt_horizon).map Prod.fst).length T)
          schedRows := numActiveEVOf chargerNew numAllEV
          sched := (infeasibleResult
            ((getActiveEV chargerNew numAllEV opt_horizon).map Prod.fst).length T).1
          rateColumn := oldColumn
          chargerNext := updateCharger chargerNew AllEV (ti + 1) oldColumn timeint } := by
    simp only [updateInterval]
    rw [if_pos hact]
    simp [infeasibleResult]
  refine ⟨?_, ?_, ?_, ?_⟩
  · rw [hR]
    rfl
  · intro i t hil htT
    rw [hR]
    show (if i < ((getActiveEV chargerNew numAllEV opt_horizon).map Prod.fst).length
        ∧ t < T then (1 : ℚ) * (-1) else 0) = -1
    rw [if_pos ⟨by rwa [List.length_map], htT⟩]
    norm_num
  · rw [hR]
  · intro ii h1 h2 h3
    rw [hR]
    show (updateCharger chargerNew AllEV (ti + 1) oldColumn timeint ii).energy
      = (chargerNew ii).energy
    rw [updateCharger, if_pos ⟨h2, h3⟩, if_pos h1]
    show (chargerNew ii).energy - oldColumn ii * timeint = (chargerNew ii).energy
    rw [hcol ii]
    ring

/-- Witness for C4: one Active charger with 10 units of remaining energy and
a still-parked vehicle; the infeasible interval leaves the zero rate column
and the charger's energy untouched. -/
theorem lp_infeasible_interval_witness :
    (updateInterval (fun snap => infeasibleResult snap.length 2)
        (fun _ => Charger.mk 1 10 3 5) 1 5 (fun _ => AllEVRow.mk 10 0 4 5) 0
        (fun _ => 0) 2).lp
      = some ((updateInterval (fun snap => infeasibleResult snap.length 2)
          (fun _ => Charger.mk 1 10 3 5) 1 5 (fun _ => AllEVRow.mk 10 0 4 5) 0
          (fun _ => 0) 2).sched, 0)
    ∧ (∀ i t, i < (getActiveEV (fun _ => Charger.mk 1 10 3 5) 1 5).length → t < 2 →
        (updateInterval (fun snap => infeasibleResult snap.length 2)
            (fun _ => Charger.mk 1 10 3 5) 1 5 (fun _ => AllEVRow.mk 10 0 4 5) 0
            (fun _ => 0) 2).sched i t = -1)
    ∧ (updateInterval (fun snap => infeasibleResult snap.length 2)
          (fun _ => Charger.mk 1 10 3 5) 1 5 (fun _ => AllEVRow.mk 10 0 4 5) 0
          (fun _ => 0) 2).rateColumn = (fun _ => 0)
    ∧ (∀ ii, ((fun _ : ℕ => Charger.mk 1 10 3 5) ii).active = 1 →
        ((fun _ : ℕ => AllEVRow.mk 10 0 4 5) ii).arrival < ((0 + 1 : ℕ) : ℚ) →
        ((0 + 1 : ℕ) : ℚ) < ((fun _ : ℕ => AllEVRow.mk 10 0 4 5) ii).departure →
        ((updateInterval (fun snap => infeasibleResult snap.length 2)
            (fun _ => Charger.mk 1 10 3 5) 1 5 (fun _ => AllEVRow.mk 10 0 4 5) 0
            (fun _ => 0) 2).chargerNext ii).energy
          = ((fun _ : ℕ => Charger.mk 1 10 3 5) ii).energy) :=
  lp_infeasible_interval (fun _ => Charger.mk 1 10 3 5) 1 5 2
    (fun _ => AllEVRow.mk 10 0 4 5) 0 (fun _ => 0) 2
    (by simp [numActiveEVOf]) (fun _ => rfl)

/-- C5 is refuted by the code at `rpt = opt_horizon`: `getActiveEV` rewrites
the snapshot parking time only when `rpt > opt_horizon` holds strictly, so an
Active charger whose remaining parking time equals `opt_horizon` (here 5)
appears in the snapshot with value `opt_horizon = 5`, not
`min(opt_horizon, opt_horizon - 1) = 4` as the claim (and the function's own
doc comment) state. -/
theorem snapshot_clamp_code_eval :
    (snapshotRow 5 (Charger.mk 1 10 5 3)).rpt = 5
    ∧ min (5 : ℚ) (5 - 1) = 4
    ∧ (5 : ℚ) ≠ 4
    ∧ getActiveEV (fun _ => Charger.mk 1 10 5 3) 1 5
        = [(snapshotRow 5 (Charger.mk 1 10 5 3), 0)] := by
  refine ⟨?_, by norm_num, by norm_num, ?_⟩
  · show (if (5 : ℚ) > 5 then 5 - 1 else 5) = 5
    rw [if_neg (by norm_num)]
  · rfl

/-- C6 is refuted at `t = arrival`: the still-parked test of `updateCharger`
is the strict `t > AllEV[ii][1]`, so at the Advance for `t = 1` an Inactive
slot whose vehicle has `arrival = 1` and `departure = 3` — i.e. within
`[arrival, departure)` — is left Inactive instead of becoming Active
(`EVModel.__init__` uses the inclusive test `0 >= arrival` at interval 0). -/
theorem arrival_boundary_code_eval :
    ((fun _ : ℕ => AllEVRow.mk 10 1 3 5) 0).arrival ≤ ((1 : ℕ) : ℚ)
    ∧ ((1 : ℕ) : ℚ) < ((fun _ : ℕ => AllEVRow.mk 10 1 3 5) 0).departure
    ∧ (updateCharger (fun _ => Charger.mk 0 0 0 0) (fun _ => AllEVRow.mk 10 1 3 5) 1
        (fun _ => 0) 2 0).active = 0 := by
  refine ⟨by norm_num, by norm_num, ?_⟩
  simp only [updateCharger]
  rw [if_neg (by norm_num)]

/-- C9 is refuted by the aliasing of the charger tables: after the Advance
step the committed `charger` attribute holds the advanced energy
`10 - 2*2 = 6`, not the start-of-interval value `10`, because
`updateCharger` mutates the list shared by both attributes. -/
theorem advance_aliasing_code_eval :
    ((advancePhase
        { charger := fun _ => Charger.mk 0 0 0 0
          chargerNew := fun _ => Charger.mk 1 10 4 5 }
        (fun _ => AllEVRow.mk 10 0 5 5) 2 (fun _ => 2) 2).charger 0).energy = 6
    ∧ ((fun _ : ℕ => Charger.mk 1 10 4 5) 0).energy = 10
    ∧ (6 : ℚ) ≠ 10 := by
  refine ⟨?_, rfl, by norm_num⟩
  simp only [advancePhase, updateCharger]
  rw [if_pos (by constructor <;> norm_num), if_pos trivial]
  show (10 : ℚ) - 2 * 2 = 6
  norm_num

/-- C10: when no charger is Active the interval skips the LP entirely — no
solve is invoked, the schedule is the `0 × opt_horizon` zero matrix and the
rate column stays zero — but the final reformatting step
`self.schedule[:, 0:(len(self.schedule[0]) - self.t)]` indexes row 0 of the
zero-row schedule and therefore fails (modelled as `none`), so `update()` does
not complete normally when the last processed interval had zero Active
chargers. -/
theorem empty_interval_code_eval :
    (updateInterval (fun _ => (fun _ _ => (0 : ℚ), 1)) (fun _ => Charger.mk 0 0 0 0) 2 5
        (fun _ => AllEVRow.mk 10 3 6 5) 0 (fun _ => 0) 2).lp = none
    ∧ (updateInterval (fun _ => (fun _ _ => (0 : ℚ), 1)) (fun _ => Charger.mk 0 0 0 0) 2 5
        (fun _ => AllEVRow.mk 10 3 6 5) 0 (fun _ => 0) 2).sched = (fun _ _ => 0)
    ∧ (updateInterval (fun _ => (fun _ _ => (0 : ℚ), 1)) (fun _ => Charger.mk 0 0 0 0) 2 5
        (fun _ => AllEVRow.mk 10 3 6 5) 0 (fun _ => 0) 2).rateColumn = (fun _ => 0)
    ∧ (updateInterval (fun _ => (fun _ _ => (0 : ℚ), 1)) (fun _ => Charger.mk 0 0 0 0) 2 5
        (fun _ => AllEVRow.mk 10 3 6 5) 0 (fun _ => 0) 2).schedRows = 0
    ∧ reformatSchedule
        (updateInterval (fun _ => (fun _ _ => (0 : ℚ), 1)) (fun _ => Charger.mk 0 0 0 0) 2 5
          (fun _ => AllEVRow.mk 10 3 6 5) 0 (fun _ => 0) 2).schedRows 5 1
        (updateInterval (fun _ => (fun _ _ => (0 : ℚ), 1)) (fun _ => Charger.mk 0 0 0 0) 2 5
          (fun _ => AllEVRow.mk 10 3 6 5) 0 (fun _ => 0) 2).sched = none :=
  ⟨rfl, rfl, rfl, rfl, rfl⟩

end ACN
